import Mathlib

/-!
Verification of the subspace-core-rust specification against a shallow
embedding of the source.  Each section of definitions is translated from a
named source file; theorems at the end of the file settle the spec claims.

Conventions used throughout:
* machine integers (u64, usize, bytes) are modelled as naturals, with an
  explicit modulus U64 = 2^64 where Rust release-mode wrap-around matters;
* Rust HashMap / keyed stores are modelled as association lists with
  insert-or-overwrite semantics (alInsert / alGet);
* panics (unwrap / expect / panic!) are modelled by returning none;
* the SHA-256 digest (crypto.rs, outside the provided sources) is an
  abstract function parameter, since the claims only use it opaquely.
-/

namespace Subspace

/-- Modulus of the u64 type, 2^64 written as a numeral so that omega can use it. -/
def U64 : ℕ := 18446744073709551616

/-- Constant TIMESLOTS_PER_EPOCH from src/lib.rs. -/
def TIMESLOTS_PER_EPOCH : ℕ := 4

/-- Constant CONFIRMATION_DEPTH from src/lib.rs. -/
def CONFIRMATION_DEPTH : ℕ := 6

/-- Byte strings (block ids, randomness values, hashes) as lists of naturals. -/
abbrev Bytes := List ℕ

/-- Lookup in an association-list map (models HashMap::get / keyed store get). -/
def alGet {V : Type} (k : ℕ) : List (ℕ × V) → Option V
  | [] => none
  | (k2, v) :: rest => if k2 = k then some v else alGet k rest

/-- Insert-or-overwrite in an association-list map (models HashMap::insert). -/
def alInsert {V : Type} (k : ℕ) (v : V) : List (ℕ × V) → List (ℕ × V)
  | [] => [(k, v)]
  | (k2, v2) :: rest =>
    if k2 = k then (k2, v) :: rest else (k2, v2) :: alInsert k v rest

/-- Little-endian byte encoding of a u64, as in u64::to_le_bytes. -/
def toLeBytes8 (n : ℕ) : Bytes :=
  (List.range 8).map (fun i => n / 256 ^ i % 256)

/-- XOR of byte strings, from src/utils.rs xor_bytes: every byte of the first
argument is xored with the byte of the second at the same index (the source
indexes the second slice and both slices are 32 bytes at every call site;
zipWith truncates to the shorter list, which agrees on those call sites). -/
def xorBytes (a b : Bytes) : Bytes := List.zipWith Nat.xor a b

/-! ## Epoch (src/timer/epoch.rs)

The timeslots HashMap is modelled as an association list in insertion order;
the challenges Vec and the randomness array are carried verbatim.  The digest
function crypto::digest_sha_256 is an explicit parameter. -/

structure Epoch where
  is_closed : Bool
  timeslots : List (ℕ × List Bytes)
  challenges : List Bytes
  randomness : Bytes
  solution_range : ℕ
  total_distance : ℕ
deriving DecidableEq

/-- Epoch::new from src/timer/epoch.rs. -/
def Epoch.new (digest : Bytes → Bytes) (index : ℕ) (solution_range : ℕ) : Epoch :=
  { is_closed := false
    timeslots := []
    challenges := []
    randomness := digest (toLeBytes8 index)
    solution_range := solution_range
    total_distance := 0 }

/-- Entry update for the timeslots map: and_modify push / or_insert vec of one. -/
def upsertTimeslot (idx : ℕ) (blockId : Bytes) :
    List (ℕ × List Bytes) → List (ℕ × List Bytes)
  | [] => [(idx, [blockId])]
  | (k, v) :: rest =>
    if k = idx then (k, v ++ [blockId]) :: rest
    else (k, v) :: upsertTimeslot idx blockId rest

/-- Epoch::add_block_to_timeslot from src/timer/epoch.rs: early-returns when the
epoch is already closed, otherwise records the block id at
timeslot % TIMESLOTS_PER_EPOCH. -/
def Epoch.add_block_to_timeslot (e : Epoch) (timeslot : ℕ) (blockId : Bytes) : Epoch :=
  if e.is_closed then e
  else { e with timeslots :=
          upsertTimeslot (timeslot % TIMESLOTS_PER_EPOCH) blockId e.timeslots }

/-- Epoch::close from src/timer/epoch.rs: xor-fold every recorded block id into
the current randomness, hash, derive one challenge per timeslot index as
digest (randomness concatenated with the little-endian index), mark closed.
The source pushes the derived challenges onto the existing challenges vector. -/
def Epoch.close (digest : Bytes → Bytes) (e : Epoch) : Epoch :=
  let xorResult := ((e.timeslots.map Prod.snd).flatten).foldl xorBytes e.randomness
  let newRandomness := digest xorResult
  { e with
    randomness := newRandomness
    challenges := e.challenges ++
      (List.range TIMESLOTS_PER_EPOCH).map
        (fun i => digest (newRandomness ++ toLeBytes8 i))
    is_closed := true }

/-! ## Blocks and the metablocks registry (src/metablocks.rs)

The source computes block_id, proof_id and content_id as SHA-256 hashes of the
block's parts (block.rs / crypto.rs, outside the provided sources); only
equality of these identifiers matters for the claims, so a Block carries its
identifiers as abstract naturals together with the two fields that
MetaBlocks::save reads from the block itself (proof.timeslot and
content.parent_id). -/

structure Block where
  proofTimeslot : ℕ
  parentId : ℕ
  blockId : ℕ
  proofId : ℕ
  contentId : ℕ
deriving DecidableEq

structure MetaBlock where
  block : Block
  block_id : ℕ
  proof_id : ℕ
  content_id : ℕ
  children : List ℕ
  height : ℕ
deriving DecidableEq

structure MetaBlocks where
  blocks : List (ℕ × MetaBlock)
  content_to_proof_map : List (ℕ × ℕ)
deriving DecidableEq

/-- MetaBlocks::new from src/metablocks.rs. -/
def MetaBlocks.new : MetaBlocks := { blocks := [], content_to_proof_map := [] }

/-- MetaBlocks::save from src/metablocks.rs.  For a non-genesis block
(timeslot not 0) the parent metablock is looked up through
content_to_proof_map and its children list is extended before anything else;
then, if the proof id is already present with a different block id, the source
hits panic! (two contents for one proof), modelled as none.  Otherwise the new
metablock is inserted into both maps and returned. -/
def MetaBlocks.save (mbs : MetaBlocks) (block : Block) :
    Option (MetaBlocks × MetaBlock) :=
  let parentStep : Option (MetaBlocks × ℕ) :=
    if block.proofTimeslot ≠ 0 then
      match alGet block.parentId mbs.content_to_proof_map with
      | none => none
      | some parent_proof_id =>
        match alGet parent_proof_id mbs.blocks with
        | none => none
        | some parent =>
          let parent2 : MetaBlock :=
            { parent with children := parent.children ++ [block.proofId] }
          some ({ mbs with blocks := alInsert parent_proof_id parent2 mbs.blocks },
                parent.height + 1)
    else some (mbs, 0)
  match parentStep with
  | none => none
  | some (mbs1, height) =>
    let metablock : MetaBlock :=
      { block := block
        block_id := block.blockId
        proof_id := block.proofId
        content_id := block.contentId
        children := []
        height := height }
    match alGet block.proofId mbs1.blocks with
    | some duplicated =>
      if duplicated.block_id ≠ metablock.block_id then none
      else some
        ({ blocks := alInsert block.proofId metablock mbs1.blocks
           content_to_proof_map :=
             alInsert block.contentId block.proofId mbs1.content_to_proof_map },
         metablock)
    | none => some
        ({ blocks := alInsert block.proofId metablock mbs1.blocks
           content_to_proof_map :=
             alInsert block.contentId block.proofId mbs1.content_to_proof_map },
         metablock)

/-! ## The confirmation walk in Ledger::stage_block (src/ledger.rs 724-750)

After saving the staged metablock, stage_block runs a loop intended to find
the CONFIRMATION_DEPTH-deep ancestor.  The loop's lookup key is
metablock.block.content.parent_id on every iteration (the running variable
parent_content_id is written but never read), so each iteration fetches the
same block.  The loop is embedded by recursion on the number of remaining
iterations, CONFIRMATION_DEPTH - confirmation_depth; the 0 fuel case
corresponds to CONFIRMATION_DEPTH = 0, where the source loops forever. -/

def confirmLoop (mbs : MetaBlocks) (staged : MetaBlock) : ℕ → Option MetaBlock
  | 0 => none
  | r + 1 =>
    match alGet staged.block.parentId mbs.content_to_proof_map with
    | none => none
    | some parent_proof_id =>
      match alGet parent_proof_id mbs.blocks with
      | none => none
      | some parent_block =>
        if r = 0 then some parent_block else confirmLoop mbs staged r

/-- Modelled from the spec: the ancestor reached from the staged block by
following parent links exactly k times through the metablocks registry
(stage_block step 6 of the spec: walk parents until reaching a
CONFIRMATION_DEPTH-deep ancestor and confirm it). -/
def specConfirmTarget (mbs : MetaBlocks) : MetaBlock → ℕ → Option MetaBlock
  | mb, 0 => some mb
  | mb, k + 1 =>
    match alGet mb.block.parentId mbs.content_to_proof_map with
    | none => none
    | some parent_proof_id =>
      match alGet parent_proof_id mbs.blocks with
      | none => none
      | some parent_block => specConfirmTarget mbs parent_block k

/-- A linear chain of metablocks for exercising the confirmation walk:
block i (0 ≤ i ≤ n) has proof id 100+i, content id 200+i, block id 300+i,
timeslot i, height i, and parent content id 200+(i-1). -/
def chainBlock (i : ℕ) : Block :=
  { proofTimeslot := i
    parentId := 199 + i
    blockId := 300 + i
    proofId := 100 + i
    contentId := 200 + i }

def chainMetaBlock (i : ℕ) : MetaBlock :=
  { block := chainBlock i
    block_id := 300 + i
    proof_id := 100 + i
    content_id := 200 + i
    children := if i < 7 then [101 + i] else []
    height := i }

/-- The metablocks registry holding the chain 0 ← 1 ← ... ← 7. -/
def chainRegistry : MetaBlocks :=
  { blocks := (List.range 8).map (fun i => (100 + i, chainMetaBlock i))
    content_to_proof_map := (List.range 8).map (fun i => (200 + i, 100 + i)) }

/-! ## Fork heads (src/ledger.rs 199-235)

The heads vector of the Ledger, with Ledger::update_heads and
Ledger::prune_branch.  List indexing mirrors Vec indexing; the swap of
indices 0 and i is expressed with two List.set calls. -/

structure Head where
  block_height : ℕ
  content_id : ℕ
deriving DecidableEq

def defaultHead : Head := { block_height := 0, content_id := 0 }

/-- Index of the first head whose content id equals parent_id (the for-loop in
update_heads returns on the first match). -/
def findHeadIdx (parent_id : ℕ) : List Head → Option ℕ
  | [] => none
  | h :: rest =>
    if h.content_id = parent_id then some 0
    else (findHeadIdx parent_id rest).map (· + 1)

/-- Ledger::update_heads: if some head's content id equals parent_id, advance
that head in place (height + 1, new content id) and swap it to the front when
its new height strictly exceeds the current front's height; otherwise push a
new head with the given block height. -/
def updateHeads (heads : List Head) (parent_id content_id block_height : ℕ) :
    List Head :=
  match findHeadIdx parent_id heads with
  | some i =>
    let u : Head :=
      { block_height := (heads.getD i defaultHead).block_height + 1
        content_id := content_id }
    let heads2 := heads.set i u
    if i ≠ 0 ∧ (heads.getD 0 defaultHead).block_height < u.block_height then
      (heads2.set 0 u).set i (heads.getD 0 defaultHead)
    else heads2
  | none => heads ++ [{ block_height := block_height, content_id := content_id }]

/-- Index of the last head whose content id matches (the for-loop in
prune_branch overwrites remove_index on every match). -/
def lastMatchIdx (content_id : ℕ) : List Head → Option ℕ
  | [] => none
  | h :: rest =>
    match lastMatchIdx content_id rest with
    | some j => some (j + 1)
    | none => if h.content_id = content_id then some 0 else none

/-- Ledger::prune_branch: panics (none) when the front head matches (cannot
prune the longest chain) or when no head matches (expect on remove_index);
otherwise removes the last matching head. -/
def pruneBranch (heads : List Head) (content_id : ℕ) : Option (List Head) :=
  match heads with
  | [] => none
  | h0 :: _ =>
    if h0.content_id = content_id then none
    else
      match lastMatchIdx content_id heads with
      | none => none
      | some i => some (heads.eraseIdx i)

/-- The longest-chain-front invariant of the heads vector: the head at index 0
has the maximal block height. -/
@[reducible] def headsInv (heads : List Head) : Prop :=
  ∀ h ∈ heads, h.block_height ≤ (heads.getD 0 defaultHead).block_height

/-! ## Timeslot window for gossiped blocks (src/ledger.rs 531-554)

The early/late classification in Ledger::is_valid_proposer_block_from_gossip.
MAX_EARLY_TIMESLOTS and MAX_LATE_TIMESLOTS are parameters: their numeric
values are defined outside the provided sources, and the claim is independent
of them.  The subtraction current_timeslot - MAX_EARLY_TIMESLOTS is u64
subtraction, modelled with release-mode wrap-around semantics. -/

inductive GossipCheck where
  /-- the branch logging: ignoring a block that is too early (returns false) -/
  | tooEarlyIgnored
  /-- the block is pushed into early_blocks_by_timeslot (returns false) -/
  | cachedEarly
  /-- the branch logging: received a late block via gossip (returns false) -/
  | lateIgnored
  /-- the timeslot checks passed and validation continues -/
  | inWindow
deriving DecidableEq

/-- Wrapping u64 subtraction, defined for operands below U64. -/
def wrapSub (a b : ℕ) : ℕ := (a + U64 - b) % U64

def classifyTimeslot (maxEarly maxLate current blockTs : ℕ) : GossipCheck :=
  if current < blockTs then
    if blockTs < wrapSub current maxEarly then .tooEarlyIgnored
    else .cachedEarly
  else if current + maxLate < blockTs then .lateIgnored
  else .inWindow

/-! ## Balances and transaction application (src/ledger.rs 794-905)

Ledger::confirm_block up to and including the transaction-application loop.
Account addresses, tx ids and proof ids are abstract naturals; the balances
and txs HashMaps are association lists, the tx_mempool and
blocks_on_longest_chain HashSets are lists.  BLOCK_REWARD (defined outside
the provided sources) is a parameter; the source builds every coinbase tx
with that same reward, so the coinbase variant only carries its recipient.
The sibling-pruning step at the end of confirm_block mutates only metablocks
and heads, never balances, and is modelled separately (pruneBranch).  u64
balance addition uses release-mode wrap-around. -/

structure AccountState where
  nonce : ℕ
  balance : ℕ
deriving DecidableEq

inductive Transaction where
  | coinbase (to_address : ℕ)
  | credit (from_address : ℕ) (to_address : ℕ) (amount : ℕ) (nonce : ℕ)
deriving DecidableEq

structure LedgerAccounts where
  balances : List (ℕ × AccountState)
  txs : List (ℕ × Transaction)
  tx_mempool : List ℕ
  blocks_on_longest_chain : List ℕ
deriving DecidableEq

/-- One iteration of the transaction-application loop in confirm_block.
Coinbase: credit the recipient with BLOCK_REWARD, creating the account with
nonce 0 if absent.  Credit: skip if no longer in the mempool; remove from the
mempool; the expect on the sender's account state is a panic (none) if the
sender is absent; skip when the balance is insufficient or the stored nonce
is not smaller than the tx nonce; otherwise debit sender and credit receiver,
creating the receiver with nonce 0 if absent. -/
def applyTx (blockReward : ℕ) (s : LedgerAccounts) (tx_id : ℕ) :
    Option LedgerAccounts :=
  match alGet tx_id s.txs with
  | none => none
  | some (Transaction.coinbase to_address) =>
    match alGet to_address s.balances with
    | some a =>
      let a2 : AccountState := { a with balance := (a.balance + blockReward) % U64 }
      some { s with balances := alInsert to_address a2 s.balances }
    | none =>
      let a2 : AccountState := { nonce := 0, balance := blockReward }
      some { s with balances := alInsert to_address a2 s.balances }
  | some (Transaction.credit from_address to_address amount nonce) =>
    if s.tx_mempool.contains tx_id = false then some s
    else
      let s1 : LedgerAccounts :=
        { s with tx_mempool := s.tx_mempool.filter (fun t => t != tx_id) }
      match alGet from_address s1.balances with
      | none => none
      | some sender =>
        if sender.balance < amount then some s1
        else if nonce ≤ sender.nonce then some s1
        else
          let sender2 : AccountState :=
            { sender with balance := sender.balance - amount }
          let bal2 := alInsert from_address sender2 s1.balances
          match alGet to_address bal2 with
          | some a =>
            let a2 : AccountState := { a with balance := (a.balance + amount) % U64 }
            some { s1 with balances := alInsert to_address a2 bal2 }
          | none =>
            let a2 : AccountState := { nonce := 0, balance := amount }
            some { s1 with balances := alInsert to_address a2 bal2 }

/-- Ledger::confirm_block restricted to the state it shares with balances:
fail (returning false, no changes) when some referenced tx id is unknown;
record the proof id on the longest chain; apply every transaction in list
order.  A panic inside the loop is none. -/
def confirmBlockTxs (blockReward : ℕ) (s : LedgerAccounts) (proof_id : ℕ)
    (tx_ids : List ℕ) : Option (Bool × LedgerAccounts) :=
  if tx_ids.any (fun t => (alGet t s.txs).isNone) then some (false, s)
  else
    let s1 : LedgerAccounts :=
      { s with blocks_on_longest_chain :=
          if s.blocks_on_longest_chain.contains proof_id then
            s.blocks_on_longest_chain
          else s.blocks_on_longest_chain ++ [proof_id] }
    (tx_ids.foldlM (applyTx blockReward) s1).map (fun s2 => (true, s2))

/-- Frame property on account nonces between two balance maps: accounts are
never deleted, surviving accounts keep their nonce, and newly created
accounts carry nonce 0. -/
def noncesPreservedB (b b2 : List (ℕ × AccountState)) : Prop :=
  ∀ addr : ℕ,
    match alGet addr b, alGet addr b2 with
    | some a, some a2 => a2.nonce = a.nonce
    | some _, none => False
    | none, some a2 => a2.nonce = 0
    | none, none => True

/-- The nonce frame property lifted to ledger states. -/
def noncesPreserved (s s2 : LedgerAccounts) : Prop :=
  noncesPreservedB s.balances s2.balances

/-! ## Plot tag store: range and point queries (src/plot.rs 170-266, 313-337)

The tags column family (tags_db): WriteEncoding puts the raw first 8 bytes of
HMAC(encoding, nonce) as key and the little-endian piece index as value;
RocksDB iterates keys in ascending lexicographic byte order.  The FindByRange
handler reads keys through u64::from_be_bytes, so for it the store is
modelled as the list of (big-endian u64 value of the key, piece index) pairs
in ascending key order: on 8-byte keys lexicographic byte order coincides
with numeric order of the big-endian values.  seek(k) positions the iterator
at the first key not below k, which on the sorted list is dropWhile (< k);
the collection loops break at the first key above the bound, which is
takeWhile. -/

def findByRange (store : List (ℕ × ℕ)) (target range : ℕ) : List (ℕ × ℕ) :=
  let lower := (target + U64 - range / 2) % U64
  let isLowerOverflowed := decide (target < range / 2)
  let upper := (target + range / 2) % U64
  let isUpperOverflowed := decide (U64 ≤ target + range / 2)
  if isLowerOverflowed || isUpperOverflowed then
    store.takeWhile (fun q => decide (q.1 ≤ upper)) ++
      store.dropWhile (fun q => decide (q.1 < lower))
  else
    (store.dropWhile (fun q => decide (q.1 < lower))).takeWhile
      (fun q => decide (q.1 ≤ upper))

/-- Wrap-around distance between two u64 values: the smaller of the two
walks around the circle of size U64. -/
def wrapDist (a b : ℕ) : ℕ :=
  min ((a + U64 - b) % U64) ((b + U64 - a) % U64)

/-- Lexicographic strict order on byte strings (the RocksDB default
bytewise comparator). -/
def lexLt : Bytes → Bytes → Bool
  | [], [] => false
  | [], _ :: _ => true
  | _ :: _, [] => false
  | a :: as, b :: bs => if a < b then true else if a = b then lexLt as bs else false

/-- Big-endian u64 value of an 8-byte key (u64::from_be_bytes). -/
def beVal (key : Bytes) : ℕ := key.foldl (fun acc b => acc * 256 + b) 0

/-- Little-endian u64 value of an 8-byte key (u64::from_le_bytes). -/
def leVal (key : Bytes) : ℕ := key.foldr (fun b acc => acc * 256 + b) 0

/-- The FindByTag handler of src/plot.rs (170-191): seek the iterator to
tag.to_le_bytes() (the little-endian encoding of the argument) and decode the
key found there as little-endian; when the seek runs past the last key,
iter.key() is None and the unwrap panics (modelled as none).  The store holds
the raw 8-byte keys in ascending lexicographic order. -/
def findByTag (store : List (Bytes × ℕ)) (tag : ℕ) : Option (ℕ × ℕ) :=
  match store.dropWhile (fun q => lexLt q.1 (toLeBytes8 tag)) with
  | [] => none
  | q :: _ => some (leVal q.1, q.2)

/-- Modelled from the spec: find_by_tag returns the first stored tag greater
than or equal to the argument in lexicographic big-endian order (the smallest
stored tag that is at least the argument as an integer), with its piece
index. -/
def specFindByTag (store : List (Bytes × ℕ)) (tag : ℕ) : Option (ℕ × ℕ) :=
  match store.dropWhile (fun q => decide (beVal q.1 < tag)) with
  | [] => none
  | q :: _ => some (beVal q.1, q.2)

/-! ## Sloth (src/sloth.rs)

Sloth::init derives the largest prime p congruent to 3 mod 4 below
2^PRIME_SIZE_BITS and the exponent (p+1)/4; the development is parametric in
any prime p with p % 4 = 3.  rug's Integer::jacobi on an odd prime modulus is
the Legendre symbol, expressed here through Euler's criterion.  A piece is
handled as the list of its block values: Integer::from_digits over the
32-byte chunks is a bijection onto naturals below 2^256, reversed by
write_integers_to_array, and the decode loop bound
PIECE_SIZE / block_size_bytes equals the number of blocks (128 in the
reference configuration); the theorems quantify over any list of blocks. -/

/-- The value of rug jacobi(x, p) for an odd prime modulus p, via Euler's
criterion: 0 when p divides x, 1 when x is a nonzero quadratic residue mod p,
and -1 otherwise. -/
def legendre (p x : ℕ) : ℤ :=
  if x % p = 0 then 0 else if x ^ ((p - 1) / 2) % p = 1 then 1 else -1

/-- The sign fix on the quadratic-residue branch of sqrt_permutation: if the
root is odd, replace it by its negation mod p (which is even, p being odd). -/
def parityNegEven (p y : ℕ) : ℕ := if y % 2 = 1 then p - y else y

/-- The sign fix on the non-residue branch of sqrt_permutation: if the root
is even, replace it by its negation mod p (which is odd). -/
def parityNegOdd (p y : ℕ) : ℕ := if y % 2 = 0 then p - y else y

/-- Sloth::sqrt_permutation.  The assert data < prime of the source is the
precondition 0 <= x < p of the theorems; on jacobi = 1 the root
x^((p+1)/4) mod p is fixed to be even, otherwise the root of p - x is fixed
to be odd. -/
def sqrtPermutation (p x : ℕ) : ℕ :=
  if legendre p x = 1 then parityNegEven p (x ^ ((p + 1) / 4) % p)
  else parityNegOdd p ((p - x) ^ ((p + 1) / 4) % p)

/-- Sloth::inverse_sqrt: record the parity, square mod p, and negate mod p
when the input was odd. -/
def inverseSqrt (p x : ℕ) : ℕ :=
  if x % 2 = 1 then p - x ^ 2 % p else x ^ 2 % p

/-- The inner block loop of one Sloth::encode pass: xor each block with the
running feedback, apply the square-root permutation, carry the new block
value forward as feedback; returns the new blocks and the outgoing feedback. -/
def encodeBlocks (p : ℕ) : ℕ → List ℕ → List ℕ × ℕ
  | feedback, [] => ([], feedback)
  | feedback, b :: rest =>
    ((sqrtPermutation p (b ^^^ feedback)) ::
        (encodeBlocks p (sqrtPermutation p (b ^^^ feedback)) rest).1,
      (encodeBlocks p (sqrtPermutation p (b ^^^ feedback)) rest).2)

/-- The layer loop of Sloth::encode, threading the feedback across layers as
the source's mutable feedback variable does. -/
def encodeLayersF (p : ℕ) : ℕ → ℕ → List ℕ → List ℕ × ℕ
  | 0, feedback, piece => (piece, feedback)
  | n + 1, feedback, piece =>
    encodeLayersF p n (encodeBlocks p feedback piece).2
      (encodeBlocks p feedback piece).1

/-- Sloth::encode on the block values of a piece. -/
def encode (p : ℕ) (piece : List ℕ) (iv : ℕ) (layers : ℕ) : List ℕ :=
  (encodeLayersF p layers iv piece).1

/-- Decoding of blocks 1 and higher: the source walks indices downward, and
block i reads the still-encoded block i-1 as feedback, so the preceding
encoded value is passed along the list. -/
def decodeTail (p : ℕ) : ℕ → List ℕ → List ℕ
  | _, [] => []
  | prev, b :: rest => (inverseSqrt p b ^^^ prev) :: decodeTail p b rest

/-- One pass of Sloth::decode.  Block 0 takes the already decoded last block
as feedback (piece_to_first_block_and_feedback reads the end of the slice
after the rest of the pass has run), except on the final layer, where the
xor is skipped and the IV is removed at the very end of decode instead.  On
a single-block piece and a non-final layer the source indexes an empty slice
and panics; getLastD then returns the decoded block itself, a case that is
unreachable under the validity precondition of the theorems (the second
layer would xor the lone block with itself, producing 0). -/
def decodeRow (p : ℕ) : Bool → List ℕ → List ℕ
  | _, [] => []
  | true, b :: rest => inverseSqrt p b :: decodeTail p b rest
  | false, b :: rest =>
    (inverseSqrt p b ^^^ (decodeTail p b rest).getLastD (inverseSqrt p b)) ::
      decodeTail p b rest

/-- The layer loop of Sloth::decode: layers run in order and the xor-skip
applies on the final one. -/
def decodeLayers (p : ℕ) : ℕ → List ℕ → List ℕ
  | 0, piece => piece
  | n + 1, piece => decodeLayers p n (decodeRow p (decide (n = 0)) piece)

/-- Sloth::decode on the block values of an encoding: undo all layers, then
xor the expanded IV out of block 0. -/
def decode (p : ℕ) (piece : List ℕ) (iv : ℕ) (layers : ℕ) : List ℕ :=
  match decodeLayers p layers piece with
  | [] => []
  | b :: rest => (b ^^^ iv) :: rest

/-- Validity of one encode pass: every value entering sqrt_permutation lies
strictly between 0 and p.  This is the claim's precondition that every block
value involved stays below the prime: a value at or above p trips the assert,
and a zero input makes the permutation return p itself, which is not below
the prime. -/
def encodeBlocksOk (p : ℕ) : ℕ → List ℕ → Bool
  | _, [] => true
  | feedback, b :: rest =>
    decide (0 < b ^^^ feedback) && decide (b ^^^ feedback < p) &&
      encodeBlocksOk p (sqrtPermutation p (b ^^^ feedback)) rest

/-- Validity of a whole encoding: every pass is valid. -/
def encodeLayersOk (p : ℕ) : ℕ → ℕ → List ℕ → Bool
  | 0, _, _ => true
  | n + 1, feedback, piece =>
    encodeBlocksOk p feedback piece &&
      encodeLayersOk p n (encodeBlocks p feedback piece).2
        (encodeBlocks p feedback piece).1

/-! ## Theorems -/

/-- C5: after Epoch::close on an epoch whose challenges vector is still empty
(as produced by Epoch::new and never filled before closing), the epoch is
closed, it has exactly TIMESLOTS_PER_EPOCH challenges, challenge i is the
digest of the new randomness followed by the little-endian slot index, the new
randomness is the digest of the xor-fold of all recorded block ids into the
previous randomness, and any later add_block_to_timeslot call is a no-op. -/
theorem epoch_close_spec (digest : Bytes → Bytes) (e : Epoch)
    (hch : e.challenges = []) :
    (e.close digest).is_closed = true ∧
    (e.close digest).challenges.length = TIMESLOTS_PER_EPOCH ∧
    (∀ i, i < TIMESLOTS_PER_EPOCH →
      (e.close digest).challenges.getD i [] =
        digest ((e.close digest).randomness ++ toLeBytes8 i)) ∧
    (e.close digest).randomness =
      digest (((e.timeslots.map Prod.snd).flatten).foldl xorBytes e.randomness) ∧
    (∀ ts b, (e.close digest).add_block_to_timeslot ts b = e.close digest) := by
  refine ⟨rfl, ?_, ?_, rfl, ?_⟩
  · simp [Epoch.close, hch]
  · intro i hi
    simp only [TIMESLOTS_PER_EPOCH] at hi
    simp only [Epoch.close, hch]
    interval_cases i <;> rfl
  · intro ts b
    simp [Epoch.add_block_to_timeslot, Epoch.close]

/-- Witness for C5 at a concrete epoch: the identity digest and a fresh epoch. -/
theorem epoch_close_spec_witness :
    ((Epoch.new id 0 0).close id).is_closed = true ∧
    ((Epoch.new id 0 0).close id).challenges.length = TIMESLOTS_PER_EPOCH ∧
    (∀ i, i < TIMESLOTS_PER_EPOCH →
      ((Epoch.new id 0 0).close id).challenges.getD i [] =
        id (((Epoch.new id 0 0).close id).randomness ++ toLeBytes8 i)) ∧
    ((Epoch.new id 0 0).close id).randomness =
      id ((((Epoch.new id 0 0).timeslots.map Prod.snd).flatten).foldl xorBytes
        (Epoch.new id 0 0).randomness) ∧
    (∀ ts b, ((Epoch.new id 0 0).close id).add_block_to_timeslot ts b =
      (Epoch.new id 0 0).close id) :=
  epoch_close_spec id (Epoch.new id 0 0) rfl

/-- C3 (code bug): staging a block B with the same proof id as an
already-staged block A but a different block id does not record a fault and
leave the registry unchanged; MetaBlocks::save hits panic! (modelled as none),
crashing the process.  The first conjunct shows the pre-state is exactly what
staging A into an empty registry produces; the second evaluates save on B. -/
theorem metablocks_duplicate_proof_crashes :
    MetaBlocks.save MetaBlocks.new
      { proofTimeslot := 0, parentId := 0, blockId := 10, proofId := 1, contentId := 20 } =
      some
        ({ blocks :=
             [(1, { block := { proofTimeslot := 0, parentId := 0, blockId := 10,
                               proofId := 1, contentId := 20 },
                    block_id := 10, proof_id := 1, content_id := 20,
                    children := [], height := 0 })]
           content_to_proof_map := [(20, 1)] },
         { block := { proofTimeslot := 0, parentId := 0, blockId := 10,
                      proofId := 1, contentId := 20 },
           block_id := 10, proof_id := 1, content_id := 20,
           children := [], height := 0 }) ∧
    MetaBlocks.save
      { blocks :=
          [(1, { block := { proofTimeslot := 0, parentId := 0, blockId := 10,
                            proofId := 1, contentId := 20 },
                 block_id := 10, proof_id := 1, content_id := 20,
                 children := [], height := 0 })]
        content_to_proof_map := [(20, 1)] }
      { proofTimeslot := 0, parentId := 0, blockId := 11, proofId := 1, contentId := 21 } =
      none := by
  exact ⟨by decide, by decide⟩

/-- C2 (code bug): on the linear chain 0 ← 1 ← ... ← 7 with
CONFIRMATION_DEPTH = 6, staging block 7 should confirm the ancestor exactly 6
parent links above it, block 1; the source loop instead looks up the staged
block's own parent content id on every iteration and confirms the immediate
parent, block 6. -/
theorem stage_block_confirms_immediate_parent :
    confirmLoop chainRegistry (chainMetaBlock 7) CONFIRMATION_DEPTH =
      some (chainMetaBlock 6) ∧
    specConfirmTarget chainRegistry (chainMetaBlock 7) CONFIRMATION_DEPTH =
      some (chainMetaBlock 1) ∧
    chainMetaBlock 6 ≠ chainMetaBlock 1 := by
  refine ⟨by decide, by decide, by decide⟩

theorem getD_set_self {α : Type} (d a : α) :
    ∀ (l : List α) (i : ℕ), i < l.length → (l.set i a).getD i d = a := by
  intro l
  induction l with
  | nil => intro i h; simp at h
  | cons x t ih =>
    intro i h
    cases i with
    | zero => rfl
    | succ j => exact ih j (Nat.lt_of_succ_lt_succ h)

theorem getD_set_ne {α : Type} (d a : α) :
    ∀ (l : List α) (i j : ℕ), i ≠ j → (l.set i a).getD j d = l.getD j d := by
  intro l
  induction l with
  | nil => intro i j _; cases i <;> rfl
  | cons x t ih =>
    intro i j hij
    cases i with
    | zero =>
      cases j with
      | zero => exact absurd rfl hij
      | succ j2 => rfl
    | succ i2 =>
      cases j with
      | zero => rfl
      | succ j2 => exact ih i2 j2 (fun he => hij (by rw [he]))

theorem findHeadIdx_lt_length (pid : ℕ) :
    ∀ (l : List Head) (i : ℕ), findHeadIdx pid l = some i → i < l.length := by
  intro l
  induction l with
  | nil => intro i h; exact Option.noConfusion h
  | cons x t ih =>
    intro i h
    simp only [findHeadIdx] at h
    by_cases hx : x.content_id = pid
    · rw [if_pos hx] at h
      cases h
      simp
    · rw [if_neg hx] at h
      cases ht : findHeadIdx pid t with
      | none => rw [ht] at h; simp at h
      | some j =>
        rw [ht] at h
        injection h with h2
        subst h2
        have := ih j ht
        simp only [List.length_cons]
        omega

/-- C4: the heads vector keeps the longest-chain tip at index 0.  For
update_heads (used by every staging), assuming the invariant and that a newly
pushed branch does not exceed the current front (a new branch forks off a
block strictly below an existing tip), the invariant is preserved and the
front changes only to a head whose height strictly exceeds the old front's
height (so ties keep the existing front, by insertion order).  For
prune_branch, the invariant is preserved and the front never changes. -/
theorem heads_front_is_longest :
    (∀ (heads : List Head) (pid cid bh : ℕ),
      headsInv heads →
      (findHeadIdx pid heads = none →
        heads = [] ∨ bh ≤ (heads.getD 0 defaultHead).block_height) →
      headsInv (updateHeads heads pid cid bh) ∧
      (heads ≠ [] →
        (updateHeads heads pid cid bh).getD 0 defaultHead =
          heads.getD 0 defaultHead ∨
        (heads.getD 0 defaultHead).block_height <
          ((updateHeads heads pid cid bh).getD 0 defaultHead).block_height)) ∧
    (∀ (heads : List Head) (cid : ℕ) (heads2 : List Head),
      headsInv heads → pruneBranch heads cid = some heads2 →
      headsInv heads2 ∧
      heads2.getD 0 defaultHead = heads.getD 0 defaultHead) := by
  constructor
  · intro heads pid cid bh hInv hNone
    cases hidx : findHeadIdx pid heads with
    | none =>
      have hcase := hNone hidx
      simp only [updateHeads, hidx]
      cases heads with
      | nil =>
        refine ⟨?_, fun hne => absurd rfl hne⟩
        intro h hm
        simp only [List.nil_append, List.mem_singleton] at hm
        subst hm
        exact Nat.le_refl _
      | cons h0 t =>
        rcases hcase with hcase | hcase
        · exact absurd hcase (by simp)
        · refine ⟨?_, fun _ => Or.inl rfl⟩
          intro h hm
          rcases List.mem_append.mp hm with hm | hm
          · exact hInv h hm
          · simp only [List.mem_singleton] at hm
            subst hm
            exact hcase
    | some i =>
      have hlen := findHeadIdx_lt_length pid heads i hidx
      have hpos : 0 < heads.length := Nat.lt_of_le_of_lt (Nat.zero_le i) hlen
      simp only [updateHeads, hidx]
      by_cases hsw : i ≠ 0 ∧ (heads.getD 0 defaultHead).block_height <
          (heads.getD i defaultHead).block_height + 1
      · rw [if_pos hsw]
        obtain ⟨hi0, hlt⟩ := hsw
        have hget0 :
            ((((heads.set i
                { block_height := (heads.getD i defaultHead).block_height + 1
                  content_id := cid }).set 0
                { block_height := (heads.getD i defaultHead).block_height + 1
                  content_id := cid }).set i
                (heads.getD 0 defaultHead)).getD 0 defaultHead) =
            ({ block_height := (heads.getD i defaultHead).block_height + 1
               content_id := cid } : Head) := by
          rw [getD_set_ne _ _ _ _ _ hi0]
          exact getD_set_self _ _ _ 0 (by simpa using hpos)
        constructor
        · intro h hm
          rw [hget0]
          rcases List.mem_or_eq_of_mem_set hm with hm | hm
          · rcases List.mem_or_eq_of_mem_set hm with hm | hm
            · rcases List.mem_or_eq_of_mem_set hm with hm | hm
              · exact Nat.le_of_lt (Nat.lt_of_le_of_lt (hInv h hm) hlt)
              · subst hm; exact Nat.le_refl _
            · subst hm; exact Nat.le_refl _
          · subst hm; exact Nat.le_of_lt hlt
        · intro _
          right
          rw [hget0]
          exact hlt
      · rw [if_neg hsw]
        by_cases hi0 : i = 0
        · subst hi0
          have hget0 : ((heads.set 0 _).getD 0 defaultHead) =
              ({ block_height := (heads.getD 0 defaultHead).block_height + 1
                 content_id := cid } : Head) :=
            getD_set_self _ _ _ 0 hpos
          constructor
          · intro h hm
            rw [hget0]
            rcases List.mem_or_eq_of_mem_set hm with hm | hm
            · exact Nat.le_succ_of_le (hInv h hm)
            · subst hm; exact Nat.le_refl _
          · intro _
            right
            rw [hget0]
            exact Nat.lt_succ_self _
        · have hle : (heads.getD i defaultHead).block_height + 1 ≤
              (heads.getD 0 defaultHead).block_height := by
            rcases Nat.lt_or_ge (heads.getD 0 defaultHead).block_height
                ((heads.getD i defaultHead).block_height + 1) with hlt | hge
            · exact absurd ⟨hi0, hlt⟩ hsw
            · exact hge
          have hget0 : ((heads.set i
              { block_height := (heads.getD i defaultHead).block_height + 1
                content_id := cid }).getD 0 defaultHead) =
              heads.getD 0 defaultHead :=
            getD_set_ne _ _ _ _ _ hi0
          constructor
          · intro h hm
            rw [hget0]
            rcases List.mem_or_eq_of_mem_set hm with hm | hm
            · exact hInv h hm
            · subst hm; exact hle
          · intro _
            left
            exact hget0
  · intro heads cid heads2 hInv hp
    cases heads with
    | nil => simp [pruneBranch] at hp
    | cons h0 t =>
      simp only [pruneBranch] at hp
      by_cases h0c : h0.content_id = cid
      · rw [if_pos h0c] at hp; cases hp
      · rw [if_neg h0c] at hp
        cases hl : lastMatchIdx cid (h0 :: t) with
        | none => rw [hl] at hp; cases hp
        | some i =>
          rw [hl] at hp
          cases hp
          have hi0 : ∃ j, i = j + 1 := by
            simp only [lastMatchIdx] at hl
            cases hlt : lastMatchIdx cid t with
            | none => rw [hlt, if_neg h0c] at hl; cases hl
            | some j => rw [hlt] at hl; cases hl; exact ⟨j, rfl⟩
          obtain ⟨j, rfl⟩ := hi0
          constructor
          · intro h hm
            have hm2 : h = h0 ∨ h ∈ t.eraseIdx j := List.mem_cons.mp hm
            rcases hm2 with hm2 | hm2
            · subst hm2; exact Nat.le_refl _
            · exact hInv h (List.mem_cons_of_mem h0 (List.eraseIdx_subset t j hm2))
          · rfl

/-- Witness for C4 at concrete inputs: updating the existing branch ending in
content id 2 of a two-head vector, and pruning that branch. -/
theorem heads_front_is_longest_witness :
    (headsInv (updateHeads
        [{ block_height := 5, content_id := 1 },
         { block_height := 3, content_id := 2 }] 2 7 0) ∧
      ([({ block_height := 5, content_id := 1 } : Head),
        { block_height := 3, content_id := 2 }] ≠ [] →
        (updateHeads
          [{ block_height := 5, content_id := 1 },
           { block_height := 3, content_id := 2 }] 2 7 0).getD 0 defaultHead =
          ([({ block_height := 5, content_id := 1 } : Head),
            { block_height := 3, content_id := 2 }]).getD 0 defaultHead ∨
        (([({ block_height := 5, content_id := 1 } : Head),
            { block_height := 3, content_id := 2 }]).getD 0
            defaultHead).block_height <
          ((updateHeads
            [{ block_height := 5, content_id := 1 },
             { block_height := 3, content_id := 2 }] 2 7 0).getD 0
            defaultHead).block_height)) ∧
    (headsInv [{ block_height := 5, content_id := 1 }] ∧
      ([({ block_height := 5, content_id := 1 } : Head)]).getD 0 defaultHead =
        ([({ block_height := 5, content_id := 1 } : Head),
          { block_height := 3, content_id := 2 }]).getD 0 defaultHead) :=
  ⟨heads_front_is_longest.1
      [{ block_height := 5, content_id := 1 },
       { block_height := 3, content_id := 2 }] 2 7 0
      (by decide) (by decide),
   heads_front_is_longest.2
      [{ block_height := 5, content_id := 1 },
       { block_height := 3, content_id := 2 }] 2
      [{ block_height := 5, content_id := 1 }]
      (by decide) (by decide)⟩

/-- C6 (code bug): a gossiped block whose proof timeslot exceeds the current
timeslot is always cached in early_blocks_by_timeslot, never rejected as too
early: the source's rejection test compares current - MAX_EARLY_TIMESLOTS
against the block timeslot, which is never greater than a strictly-future
timeslot (absent u64 underflow).  In particular a block at
current + MAX_EARLY_TIMESLOTS + 1, which the claim says is rejected without
caching, is cached. -/
theorem gossip_future_block_always_cached
    (maxEarly maxLate current blockTs : ℕ)
    (h1 : maxEarly ≤ current) (h2 : current < U64) (h3 : current < blockTs) :
    classifyTimeslot maxEarly maxLate current blockTs = GossipCheck.cachedEarly := by
  simp only [classifyTimeslot, wrapSub, U64] at *
  rw [if_pos h3]
  have hsub : (current + 18446744073709551616 - maxEarly) % 18446744073709551616 =
      current - maxEarly := by omega
  simp only [hsub]
  rw [if_neg (by omega)]

/-- Witness for C6: current timeslot 10, MAX_EARLY_TIMESLOTS 3, a block at
timeslot 14 = current + MAX_EARLY_TIMESLOTS + 1 is cached as early. -/
theorem gossip_future_block_always_cached_witness :
    classifyTimeslot 3 100 10 14 = GossipCheck.cachedEarly :=
  gossip_future_block_always_cached 3 100 10 14 (by decide) (by decide) (by decide)

theorem alGet_alInsert {V : Type} (a k : ℕ) (v : V) :
    ∀ l : List (ℕ × V),
      alGet a (alInsert k v l) = if a = k then some v else alGet a l := by
  intro l
  induction l with
  | nil =>
    by_cases h : a = k
    · subst h; simp [alGet, alInsert]
    · simp [alGet, alInsert, h, Ne.symm h]
  | cons p rest ih =>
    obtain ⟨k2, v2⟩ := p
    by_cases hk : k2 = k
    · subst hk
      by_cases h : a = k2
      · subst h; simp [alGet, alInsert]
      · simp [alGet, alInsert, h, Ne.symm h]
    · by_cases h2 : a = k
      · subst h2
        simp [alGet, alInsert, hk, ih]
      · simp [alGet, alInsert, hk, h2, ih]

theorem noncesPreservedB_refl (b : List (ℕ × AccountState)) :
    noncesPreservedB b b := by
  intro addr
  cases h : alGet addr b with
  | none => trivial
  | some a => exact rfl

theorem noncesPreservedB_trans (b1 b2 b3 : List (ℕ × AccountState))
    (h12 : noncesPreservedB b1 b2) (h23 : noncesPreservedB b2 b3) :
    noncesPreservedB b1 b3 := by
  intro addr
  have g12 := h12 addr
  have g23 := h23 addr
  cases h1 : alGet addr b1 with
  | none =>
    rw [h1] at g12
    cases h3 : alGet addr b3 with
    | none => trivial
    | some a3 =>
      rw [h3] at g23
      cases h2 : alGet addr b2 with
      | none => rw [h2] at g23; exact g23
      | some a2 =>
        rw [h2] at g12 g23
        exact (g23 : a3.nonce = a2.nonce).trans (g12 : a2.nonce = 0)
  | some a1 =>
    rw [h1] at g12
    cases h3 : alGet addr b3 with
    | none =>
      rw [h3] at g23
      cases h2 : alGet addr b2 with
      | none => rw [h2] at g12; exact g12.elim
      | some a2 => rw [h2] at g23; exact g23.elim
    | some a3 =>
      rw [h3] at g23
      cases h2 : alGet addr b2 with
      | none => rw [h2] at g12; exact g12.elim
      | some a2 =>
        rw [h2] at g12 g23
        exact (g23 : a3.nonce = a2.nonce).trans (g12 : a2.nonce = a1.nonce)

theorem noncesPreservedB_insert_existing (b : List (ℕ × AccountState))
    (k : ℕ) (a a2 : AccountState) (hget : alGet k b = some a)
    (hnonce : a2.nonce = a.nonce) :
    noncesPreservedB b (alInsert k a2 b) := by
  intro addr
  rw [alGet_alInsert]
  by_cases h : addr = k
  · subst h
    rw [hget, if_pos rfl]
    exact hnonce
  · rw [if_neg h]
    cases hg : alGet addr b with
    | none => trivial
    | some a3 => exact rfl

theorem noncesPreservedB_insert_new (b : List (ℕ × AccountState))
    (k : ℕ) (a2 : AccountState) (hget : alGet k b = none)
    (hnonce : a2.nonce = 0) :
    noncesPreservedB b (alInsert k a2 b) := by
  intro addr
  rw [alGet_alInsert]
  by_cases h : addr = k
  · subst h
    rw [hget, if_pos rfl]
    exact hnonce
  · rw [if_neg h]
    cases hg : alGet addr b with
    | none => trivial
    | some a3 => exact rfl

theorem applyTx_nonces (blockReward : ℕ) (s : LedgerAccounts) (tx_id : ℕ)
    (s2 : LedgerAccounts) (h : applyTx blockReward s tx_id = some s2) :
    noncesPreserved s s2 := by
  simp only [applyTx] at h
  cases htx : alGet tx_id s.txs with
  | none =>
    simp only [htx] at h
    exact Option.noConfusion h
  | some tx =>
    simp only [htx] at h
    cases tx with
    | coinbase to_address =>
      cases hb : alGet to_address s.balances with
      | some a =>
        simp only [hb, Option.some.injEq] at h
        subst h
        exact noncesPreservedB_insert_existing _ _ _ _ hb rfl
      | none =>
        simp only [hb, Option.some.injEq] at h
        subst h
        exact noncesPreservedB_insert_new _ _ _ hb rfl
    | credit from_address to_address amount nonce =>
      by_cases hmem : s.tx_mempool.contains tx_id = false
      · simp only [hmem, if_true, Option.some.injEq] at h
        subst h
        exact noncesPreservedB_refl _
      · simp only [hmem, Bool.true_eq_false, if_false] at h
        cases hsender : alGet from_address s.balances with
        | none =>
          simp only [hsender] at h
          exact Option.noConfusion h
        | some sender =>
          simp only [hsender] at h
          by_cases hbal : sender.balance < amount
          · simp only [hbal, if_true, Option.some.injEq] at h
            subst h
            exact noncesPreservedB_refl _
          · simp only [hbal, if_false] at h
            by_cases hn : nonce ≤ sender.nonce
            · simp only [hn, if_true, Option.some.injEq] at h
              subst h
              exact noncesPreservedB_refl _
            · simp only [hn, if_false] at h
              have hstep1 : noncesPreservedB s.balances
                  (alInsert from_address
                    { sender with balance := sender.balance - amount }
                    s.balances) :=
                noncesPreservedB_insert_existing _ _ _ _ hsender rfl
              cases hto : alGet to_address
                  (alInsert from_address
                    { sender with balance := sender.balance - amount }
                    s.balances) with
              | some a =>
                simp only [hto, Option.some.injEq] at h
                subst h
                exact noncesPreservedB_trans _ _ _ hstep1
                  (noncesPreservedB_insert_existing _ _ _ _ hto rfl)
              | none =>
                simp only [hto, Option.some.injEq] at h
                subst h
                exact noncesPreservedB_trans _ _ _ hstep1
                  (noncesPreservedB_insert_new _ _ _ hto rfl)

theorem foldlM_applyTx_nonces (blockReward : ℕ) :
    ∀ (tx_ids : List ℕ) (s s2 : LedgerAccounts),
      List.foldlM (applyTx blockReward) s tx_ids = some s2 →
      noncesPreserved s s2 := by
  intro tx_ids
  induction tx_ids with
  | nil =>
    intro s s2 h
    cases h
    exact noncesPreservedB_refl _
  | cons t ts ih =>
    intro s s2 h
    rw [List.foldlM_cons] at h
    cases happ : applyTx blockReward s t with
    | none => rw [happ] at h; cases h
    | some s1 =>
      rw [happ] at h
      exact noncesPreservedB_trans _ _ _ (applyTx_nonces _ _ _ _ happ)
        (ih s1 s2 h)

/-- C10: confirm_block never changes the nonce of any account: every account
present before is present after with the same nonce, and accounts created by
coinbase or credit application carry nonce 0.  In particular the stored
sender nonce is never increased, even though the replay check compares the
tx nonce against it. -/
theorem confirm_block_preserves_nonces (blockReward : ℕ) (s : LedgerAccounts)
    (proof_id : ℕ) (tx_ids : List ℕ) (b : Bool) (s2 : LedgerAccounts)
    (h : confirmBlockTxs blockReward s proof_id tx_ids = some (b, s2)) :
    noncesPreserved s s2 := by
  simp only [confirmBlockTxs] at h
  by_cases hany : tx_ids.any (fun t => (alGet t s.txs).isNone) = true
  · rw [if_pos hany] at h
    injection h with h2
    injection h2 with hb hs
    subst hs
    exact noncesPreservedB_refl _
  · rw [if_neg hany] at h
    cases hf : List.foldlM (applyTx blockReward)
        { s with blocks_on_longest_chain :=
            if s.blocks_on_longest_chain.contains proof_id then
              s.blocks_on_longest_chain
            else s.blocks_on_longest_chain ++ [proof_id] } tx_ids with
    | none => rw [hf] at h; cases h
    | some s3 =>
      rw [hf] at h
      injection h with h2
      injection h2 with hb hs
      subst hs
      refine noncesPreservedB_trans _ _ _ (noncesPreservedB_refl s.balances) ?_
      exact foldlM_applyTx_nonces blockReward tx_ids
        { s with blocks_on_longest_chain :=
            if s.blocks_on_longest_chain.contains proof_id then
              s.blocks_on_longest_chain
            else s.blocks_on_longest_chain ++ [proof_id] } s3 hf

/-- Witness for C10: a coinbase for account 100 followed by a credit of 10
from account 100 to the fresh account 200. -/
theorem confirm_block_preserves_nonces_witness :
    noncesPreserved
      { balances := [(100, { nonce := 2, balance := 50 })]
        txs := [(5, Transaction.coinbase 100),
                (6, Transaction.credit 100 200 10 3)]
        tx_mempool := [6]
        blocks_on_longest_chain := [] }
      { balances := [(100, { nonce := 2, balance := 47 }),
                     (200, { nonce := 0, balance := 10 })]
        txs := [(5, Transaction.coinbase 100),
                (6, Transaction.credit 100 200 10 3)]
        tx_mempool := []
        blocks_on_longest_chain := [9] } :=
  confirm_block_preserves_nonces 7
    { balances := [(100, { nonce := 2, balance := 50 })]
      txs := [(5, Transaction.coinbase 100),
              (6, Transaction.credit 100 200 10 3)]
      tx_mempool := [6]
      blocks_on_longest_chain := [] }
    9 [5, 6] true
    { balances := [(100, { nonce := 2, balance := 47 }),
                   (200, { nonce := 0, balance := 10 })]
      txs := [(5, Transaction.coinbase 100),
              (6, Transaction.credit 100 200 10 3)]
      tx_mempool := []
      blocks_on_longest_chain := [9] }
    (by decide)

theorem mem_takeWhile_le (u : ℕ) :
    ∀ (store : List (ℕ × ℕ)), List.Pairwise (fun a b => a.1 < b.1) store →
      ∀ p : ℕ × ℕ,
        (p ∈ store.takeWhile (fun q => decide (q.1 ≤ u)) ↔
          p ∈ store ∧ p.1 ≤ u) := by
  intro store
  induction store with
  | nil => intro _ p; simp
  | cons x rest ih =>
    intro hp p
    obtain ⟨hx, hrest⟩ := List.pairwise_cons.mp hp
    by_cases hxu : x.1 ≤ u
    · rw [List.takeWhile_cons, if_pos (decide_eq_true hxu)]
      simp only [List.mem_cons]
      constructor
      · rintro (rfl | hm)
        · exact ⟨Or.inl rfl, hxu⟩
        · have h2 := (ih hrest p).mp hm
          exact ⟨Or.inr h2.1, h2.2⟩
      · rintro ⟨rfl | hm, hle⟩
        · exact Or.inl rfl
        · exact Or.inr ((ih hrest p).mpr ⟨hm, hle⟩)
    · rw [List.takeWhile_cons, if_neg (by simp [hxu])]
      simp only [List.not_mem_nil, false_iff, List.mem_cons]
      rintro ⟨rfl | hm, hle⟩
      · exact hxu hle
      · exact hxu (Nat.le_of_lt (Nat.lt_of_lt_of_le (hx p hm) hle))

theorem mem_dropWhile_lt (lo : ℕ) :
    ∀ (store : List (ℕ × ℕ)), List.Pairwise (fun a b => a.1 < b.1) store →
      ∀ p : ℕ × ℕ,
        (p ∈ store.dropWhile (fun q => decide (q.1 < lo)) ↔
          p ∈ store ∧ lo ≤ p.1) := by
  intro store
  induction store with
  | nil => intro _ p; simp
  | cons x rest ih =>
    intro hp p
    obtain ⟨hx, hrest⟩ := List.pairwise_cons.mp hp
    by_cases hxl : x.1 < lo
    · rw [List.dropWhile_cons, if_pos (decide_eq_true hxl)]
      rw [ih hrest p]
      simp only [List.mem_cons]
      constructor
      · rintro ⟨hm, hge⟩
        exact ⟨Or.inr hm, hge⟩
      · rintro ⟨rfl | hm, hge⟩
        · omega
        · exact ⟨hm, hge⟩
    · rw [List.dropWhile_cons, if_neg (by simp [hxl])]
      simp only [List.mem_cons]
      constructor
      · rintro (rfl | hm)
        · exact ⟨Or.inl rfl, Nat.le_of_not_lt hxl⟩
        · exact ⟨Or.inr hm,
            Nat.le_of_lt (Nat.lt_of_le_of_lt (Nat.le_of_not_lt hxl) (hx p hm))⟩
      · rintro ⟨hm, _⟩
        exact hm

theorem mem_findByRange (store : List (ℕ × ℕ)) (target range : ℕ)
    (hsort : List.Pairwise (fun a b => a.1 < b.1) store)
    (hbound : ∀ p ∈ store, p.1 < U64)
    (htarget : target < U64) (hrange : range < U64) (p : ℕ × ℕ) :
    p ∈ findByRange store target range ↔
      p ∈ store ∧ wrapDist p.1 target ≤ range / 2 := by
  have hsortd : List.Pairwise (fun a b => a.1 < b.1)
      (store.dropWhile
        (fun q => decide (q.1 < (target + U64 - range / 2) % U64))) :=
    List.Pairwise.sublist (List.dropWhile_sublist _) hsort
  simp only [findByRange]
  by_cases hov :
      (decide (target < range / 2) || decide (U64 ≤ target + range / 2)) = true
  · have hov2 : target < range / 2 ∨ U64 ≤ target + range / 2 := by
      simpa using hov
    rw [if_pos hov, List.mem_append,
      mem_takeWhile_le _ store hsort p, mem_dropWhile_lt _ store hsort p]
    constructor
    · rintro (⟨hm, hle⟩ | ⟨hm, hge⟩) <;>
        [skip; skip] <;>
        · refine ⟨hm, ?_⟩
          have hpb := hbound p hm
          simp only [wrapDist, U64] at *
          omega
    · rintro ⟨hm, hdist⟩
      have hpb := hbound p hm
      have hsplit : p.1 ≤ (target + range / 2) % U64 ∨
          (target + U64 - range / 2) % U64 ≤ p.1 := by
        simp only [wrapDist, U64] at *
        omega
      rcases hsplit with hc | hc
      · exact Or.inl ⟨hm, hc⟩
      · exact Or.inr ⟨hm, hc⟩
  · have hov2 : range / 2 ≤ target ∧ target + range / 2 < U64 := by
      have := hov
      simp only [Bool.or_eq_true, decide_eq_true_eq] at this
      push_neg at this
      omega
    rw [if_neg hov, mem_takeWhile_le _ _ hsortd p, mem_dropWhile_lt _ store hsort p]
    constructor
    · rintro ⟨⟨hm, hge⟩, hle⟩
      refine ⟨hm, ?_⟩
      have hpb := hbound p hm
      simp only [wrapDist, U64] at *
      omega
    · rintro ⟨hm, hdist⟩
      have hpb := hbound p hm
      refine ⟨⟨hm, ?_⟩, ?_⟩ <;>
        · simp only [wrapDist, U64] at *
          omega

/-- C7: find_by_range returns exactly the stored (tag, piece index) pairs
whose big-endian u64 tag value lies within wrap-around distance range / 2 of
the target over the full u64 space: every returned pair is stored with
distance at most range / 2, and every stored pair within that distance is
returned.  The store is the tag column family: strictly ascending keys below
2^64. -/
theorem find_by_range_window (store : List (ℕ × ℕ)) (target range : ℕ)
    (hsort : List.Pairwise (fun a b => a.1 < b.1) store)
    (hbound : ∀ p ∈ store, p.1 < U64)
    (htarget : target < U64) (hrange : range < U64) (p : ℕ × ℕ) :
    p ∈ findByRange store target range ↔
      p ∈ store ∧ wrapDist p.1 target ≤ range / 2 :=
  mem_findByRange store target range hsort hbound htarget hrange p

/-- Witness for C7: the store holding tags 3 and 10, target 4, range 4; the
pair (3, 0) is within the window. -/
theorem find_by_range_window_witness :
    (3, 0) ∈ findByRange [(3, 0), (10, 1)] 4 4 ↔
      (3, 0) ∈ [(3, 0), (10, 1)] ∧ wrapDist 3 4 ≤ 4 / 2 :=
  find_by_range_window [(3, 0), (10, 1)] 4 4 (by decide) (by decide)
    (by decide) (by decide) (3, 0)

/-- C9 counterexample: with range u64::MAX the claim says every stored pair is
returned, but the stored pair with tag 2^63 (the antipode of target 0) is not
returned, because range / 2 truncates to 2^63 - 1. -/
theorem find_by_range_max_misses_antipode :
    findByRange [(9223372036854775808, 0)] 0 (U64 - 1) = [] := by
  decide

/-- C9 amended: find_by_range with range u64::MAX returns exactly the stored
pairs whose tag differs from target + 2^63 (mod 2^64); only the antipode of
the target is missed. -/
theorem find_by_range_max_range (store : List (ℕ × ℕ)) (target : ℕ)
    (hsort : List.Pairwise (fun a b => a.1 < b.1) store)
    (hbound : ∀ p ∈ store, p.1 < U64) (htarget : target < U64) (p : ℕ × ℕ) :
    p ∈ findByRange store target (U64 - 1) ↔
      p ∈ store ∧ p.1 ≠ (target + 9223372036854775808) % U64 := by
  rw [mem_findByRange store target (U64 - 1) hsort hbound htarget (by decide) p]
  constructor
  · rintro ⟨hm, hdist⟩
    refine ⟨hm, ?_⟩
    have hpb := hbound p hm
    simp only [wrapDist, U64] at *
    omega
  · rintro ⟨hm, hne⟩
    refine ⟨hm, ?_⟩
    have hpb := hbound p hm
    simp only [wrapDist, U64] at *
    omega

/-- Witness for C9's amended statement: tag 5 differs from the antipode of
target 0 and is returned. -/
theorem find_by_range_max_range_witness :
    (5, 0) ∈ findByRange [(5, 0)] 0 (U64 - 1) ↔
      (5, 0) ∈ [(5, 0)] ∧ (5 : ℕ) ≠ (0 + 9223372036854775808) % U64 :=
  find_by_range_max_range [(5, 0)] 0 (by decide) (by decide) (by decide) (5, 0)

/-- C8 (code bug): find_by_tag seeks the little-endian encoding of its
argument against the byte-sorted tag store, although keys are ordered (and
read elsewhere) as big-endian.  For the store holding the single 8-byte key
with big-endian value 5 and piece index 3, the claim says find_by_tag 1
returns (5, 3); the seek key 01 00 .. 00 lies lexicographically after the
stored key 00 .. 00 05, so the iterator is exhausted and the source panics on
unwrap (none), while the spec-modelled big-endian seek returns (5, 3). -/
theorem find_by_tag_le_seek_diverges :
    findByTag [([0, 0, 0, 0, 0, 0, 0, 5], 3)] 1 = none ∧
    specFindByTag [([0, 0, 0, 0, 0, 0, 0, 5], 3)] 1 = some (5, 3) :=
  ⟨by decide, by decide⟩

theorem parityNegEven_spec (p y : ℕ) (hp1 : p % 2 = 1) (hy : y < p)
    (hy0 : y ≠ 0) :
    parityNegEven p y % 2 = 0 ∧ 0 < parityNegEven p y ∧ parityNegEven p y < p ∧
      (parityNegEven p y = y ∨ parityNegEven p y = p - y) := by
  simp only [parityNegEven]
  by_cases h : y % 2 = 1
  · rw [if_pos h]
    exact ⟨by omega, by omega, by omega, Or.inr rfl⟩
  · rw [if_neg h]
    exact ⟨by omega, by omega, hy, Or.inl rfl⟩

theorem parityNegOdd_spec (p y : ℕ) (hp1 : p % 2 = 1) (hy : y < p)
    (hy0 : y ≠ 0) :
    parityNegOdd p y % 2 = 1 ∧ 0 < parityNegOdd p y ∧ parityNegOdd p y < p ∧
      (parityNegOdd p y = y ∨ parityNegOdd p y = p - y) := by
  simp only [parityNegOdd]
  by_cases h : y % 2 = 0
  · rw [if_pos h]
    exact ⟨by omega, by omega, by omega, Or.inr rfl⟩
  · rw [if_neg h]
    exact ⟨by omega, by omega, hy, Or.inl rfl⟩

theorem pow_exponent_sq (p : ℕ) (hp : p.Prime) (h4 : p % 4 = 3) (w : ℕ)
    (hw : (w : ZMod p) ^ ((p - 1) / 2) = 1) :
    (((w ^ ((p + 1) / 4) % p : ℕ)) : ZMod p) ^ 2 = (w : ZMod p) := by
  haveI : Fact p.Prime := ⟨hp⟩
  rw [ZMod.natCast_mod, Nat.cast_pow, ← pow_mul]
  have h2e : (p + 1) / 4 * 2 = (p - 1) / 2 + 1 := by omega
  rw [h2e, pow_succ, hw, one_mul]

theorem sq_val_eq (p : ℕ) (hp : p.Prime) (z w : ℕ) (hwp : w < p)
    (hz : ((z : ℕ) : ZMod p) ^ 2 = ((w : ℕ) : ZMod p)) : z ^ 2 % p = w := by
  haveI : Fact p.Prime := ⟨hp⟩
  haveI : NeZero p := ⟨hp.pos.ne'⟩
  have h1 : z ^ 2 % p = ZMod.val (((z ^ 2 : ℕ) : ZMod p)) := by
    rw [ZMod.val_natCast]
  rw [h1, Nat.cast_pow, hz, ZMod.val_natCast, Nat.mod_eq_of_lt hwp]

theorem pow_half_eq_one_or_neg_one (p : ℕ) (hp : p.Prime) (h4 : p % 4 = 3)
    (x : ℕ) (hx : (x : ZMod p) ≠ 0) :
    (x : ZMod p) ^ ((p - 1) / 2) = 1 ∨ (x : ZMod p) ^ ((p - 1) / 2) = -1 := by
  haveI : Fact p.Prime := ⟨hp⟩
  have hsq : ((x : ZMod p) ^ ((p - 1) / 2)) ^ 2 = 1 := by
    rw [← pow_mul]
    have h2 : (p - 1) / 2 * 2 = p - 1 := by omega
    rw [h2]
    exact ZMod.pow_card_sub_one_eq_one hx
  exact sq_eq_one_iff.mp hsq

theorem sqrtPermutation_spec (p : ℕ) (hp : p.Prime) (h4 : p % 4 = 3)
    (x : ℕ) (hx0 : 0 < x) (hxp : x < p) :
    0 < sqrtPermutation p x ∧ sqrtPermutation p x < p ∧
      inverseSqrt p (sqrtPermutation p x) = x := by
  haveI : Fact p.Prime := ⟨hp⟩
  haveI : NeZero p := ⟨hp.pos.ne'⟩
  have hp2 : p % 2 = 1 := by omega
  have hxm0 : ¬ x % p = 0 := by
    rw [Nat.mod_eq_of_lt hxp]
    omega
  have hxbar : (x : ZMod p) ≠ 0 := by
    intro h0
    rw [ZMod.natCast_zmod_eq_zero_iff_dvd] at h0
    have := Nat.le_of_dvd hx0 h0
    omega
  by_cases hleg : legendre p x = 1
  · have hEuler : x ^ ((p - 1) / 2) % p = 1 := by
      by_contra hne
      simp only [legendre, if_neg hxm0, if_neg hne] at hleg
      exact absurd hleg (by decide)
    have hxM : (x : ZMod p) ^ ((p - 1) / 2) = 1 := by
      have hcast : ((x : ZMod p)) ^ ((p - 1) / 2) =
          (((x ^ ((p - 1) / 2) % p : ℕ)) : ZMod p) := by
        rw [ZMod.natCast_mod, Nat.cast_pow]
      rw [hcast, hEuler, Nat.cast_one]
    have hsq := pow_exponent_sq p hp h4 x hxM
    have hrlt : x ^ ((p + 1) / 4) % p < p := Nat.mod_lt _ hp.pos
    have hrne : x ^ ((p + 1) / 4) % p ≠ 0 := by
      intro h0
      rw [h0, Nat.cast_zero, zero_pow (by norm_num : (2 : ℕ) ≠ 0)] at hsq
      exact hxbar hsq.symm
    obtain ⟨hzpar, hz0, hzp, hzor⟩ :=
      parityNegEven_spec p (x ^ ((p + 1) / 4) % p) hp2 hrlt hrne
    have hperm : sqrtPermutation p x =
        parityNegEven p (x ^ ((p + 1) / 4) % p) := by
      simp only [sqrtPermutation, if_pos hleg]
    rw [hperm]
    refine ⟨hz0, hzp, ?_⟩
    have hzsq : ((parityNegEven p (x ^ ((p + 1) / 4) % p) : ℕ) : ZMod p) ^ 2 =
        ((x : ℕ) : ZMod p) := by
      rcases hzor with hz | hz
      · rw [hz]
        exact hsq
      · rw [hz, Nat.cast_sub (Nat.le_of_lt hrlt), ZMod.natCast_self, zero_sub,
          neg_sq]
        exact hsq
    have hval := sq_val_eq p hp _ x hxp hzsq
    simp only [inverseSqrt]
    rw [if_neg (by omega), hval]
  · have hne : ¬ x ^ ((p - 1) / 2) % p = 1 := by
      intro h1
      exact hleg (by simp only [legendre, if_neg hxm0, if_pos h1])
    have hxM : (x : ZMod p) ^ ((p - 1) / 2) = -1 := by
      rcases pow_half_eq_one_or_neg_one p hp h4 x hxbar with h1 | h1
      · exfalso
        apply hne
        have hcast : ((x : ZMod p)) ^ ((p - 1) / 2) =
            (((x ^ ((p - 1) / 2) % p : ℕ)) : ZMod p) := by
          rw [ZMod.natCast_mod, Nat.cast_pow]
        rw [hcast] at h1
        have h2 := (ZMod.natCast_eq_natCast_iff' _ _ _).mp
          (h1.trans (Nat.cast_one (R := ZMod p)).symm)
        rw [Nat.mod_mod_of_dvd _ dvd_rfl, Nat.mod_eq_of_lt hp.one_lt] at h2
        exact h2
      · exact h1
    have hwcast : (((p - x : ℕ)) : ZMod p) = -((x : ℕ) : ZMod p) := by
      rw [Nat.cast_sub (Nat.le_of_lt hxp), ZMod.natCast_self, zero_sub]
    have hwbar : (((p - x : ℕ)) : ZMod p) ≠ 0 := by
      rw [hwcast]
      exact neg_ne_zero.mpr hxbar
    have hModd : Odd ((p - 1) / 2) := Nat.odd_iff.mpr (by omega)
    have hwM : (((p - x : ℕ)) : ZMod p) ^ ((p - 1) / 2) = 1 := by
      rw [hwcast, neg_pow, hxM, Odd.neg_one_pow hModd]
      norm_num
    have hsq := pow_exponent_sq p hp h4 (p - x) hwM
    have hrlt : (p - x) ^ ((p + 1) / 4) % p < p := Nat.mod_lt _ hp.pos
    have hrne : (p - x) ^ ((p + 1) / 4) % p ≠ 0 := by
      intro h0
      rw [h0, Nat.cast_zero, zero_pow (by norm_num : (2 : ℕ) ≠ 0)] at hsq
      exact hwbar hsq.symm
    obtain ⟨hzpar, hz0, hzp, hzor⟩ :=
      parityNegOdd_spec p ((p - x) ^ ((p + 1) / 4) % p) hp2 hrlt hrne
    have hperm : sqrtPermutation p x =
        parityNegOdd p ((p - x) ^ ((p + 1) / 4) % p) := by
      simp only [sqrtPermutation, if_neg hleg]
    rw [hperm]
    refine ⟨hz0, hzp, ?_⟩
    have hzsq : ((parityNegOdd p ((p - x) ^ ((p + 1) / 4) % p) : ℕ) : ZMod p) ^ 2 =
        (((p - x : ℕ)) : ZMod p) := by
      rcases hzor with hz | hz
      · rw [hz]
        exact hsq
      · rw [hz, Nat.cast_sub (Nat.le_of_lt hrlt), ZMod.natCast_self, zero_sub,
          neg_sq]
        exact hsq
    have hval := sq_val_eq p hp _ (p - x) (by omega) hzsq
    simp only [inverseSqrt]
    rw [if_pos hzpar, hval]
    omega

theorem encodeBlocks_length (p : ℕ) :
    ∀ (bs : List ℕ) (c : ℕ), (encodeBlocks p c bs).1.length = bs.length := by
  intro bs
  induction bs with
  | nil => intro c; rfl
  | cons b rest ih =>
    intro c
    simp only [encodeBlocks, List.length_cons, ih]

theorem encodeBlocks_snd (p : ℕ) :
    ∀ (bs : List ℕ) (c : ℕ),
      (encodeBlocks p c bs).2 = (encodeBlocks p c bs).1.getLastD c := by
  intro bs
  induction bs with
  | nil => intro c; rfl
  | cons b rest ih =>
    intro c
    simp only [encodeBlocks, List.getLastD_cons]
    exact ih _

theorem getLastD_ne_nil {α : Type} :
    ∀ (l : List α), l ≠ [] → ∀ d d2 : α, l.getLastD d = l.getLastD d2 := by
  intro l
  cases l with
  | nil => intro h; exact absurd rfl h
  | cons a t =>
    intro _ d d2
    rw [List.getLastD_cons, List.getLastD_cons]

theorem decodeTail_encodeBlocks (p : ℕ) (hp : p.Prime) (h4 : p % 4 = 3) :
    ∀ (bs : List ℕ) (c : ℕ), encodeBlocksOk p c bs = true →
      decodeTail p c (encodeBlocks p c bs).1 = bs := by
  intro bs
  induction bs with
  | nil => intro c _; rfl
  | cons b rest ih =>
    intro c hok
    simp only [encodeBlocksOk, Bool.and_eq_true, decide_eq_true_eq] at hok
    obtain ⟨⟨hv0, hvp⟩, hok2⟩ := hok
    simp only [encodeBlocks, decodeTail]
    rw [(sqrtPermutation_spec p hp h4 _ hv0 hvp).2.2, Nat.xor_cancel_right,
      ih _ hok2]

theorem encodeLayersF_length (p : ℕ) :
    ∀ (n : ℕ) (fb : ℕ) (piece : List ℕ),
      (encodeLayersF p n fb piece).1.length = piece.length := by
  intro n
  induction n with
  | zero => intro fb piece; rfl
  | succ n ih =>
    intro fb piece
    simp only [encodeLayersF]
    rw [ih, encodeBlocks_length]

theorem encodeLayersF_succ (p : ℕ) :
    ∀ (n : ℕ) (fb : ℕ) (piece : List ℕ),
      encodeLayersF p (n + 1) fb piece =
        encodeBlocks p (encodeLayersF p n fb piece).2
          (encodeLayersF p n fb piece).1 := by
  intro n
  induction n with
  | zero => intro fb piece; rfl
  | succ n ih =>
    intro fb piece
    exact ih (encodeBlocks p fb piece).2 (encodeBlocks p fb piece).1

theorem encodeLayersOk_succ (p : ℕ) :
    ∀ (n : ℕ) (fb : ℕ) (piece : List ℕ),
      encodeLayersOk p (n + 1) fb piece = true →
      encodeLayersOk p n fb piece = true ∧
        encodeBlocksOk p (encodeLayersF p n fb piece).2
          (encodeLayersF p n fb piece).1 = true := by
  intro n
  induction n with
  | zero =>
    intro fb piece h
    simp only [encodeLayersOk, Bool.and_eq_true] at h
    exact ⟨rfl, h.1⟩
  | succ n ih =>
    intro fb piece h
    have h' : encodeBlocksOk p fb piece = true ∧
        encodeLayersOk p (n + 1) (encodeBlocks p fb piece).2
          (encodeBlocks p fb piece).1 = true := by
      rw [← Bool.and_eq_true]
      exact h
    obtain ⟨hrow, hrest⟩ := h'
    obtain ⟨h1, h2⟩ := ih _ _ hrest
    refine ⟨?_, h2⟩
    rw [show encodeLayersOk p (n + 1) fb piece =
        (encodeBlocksOk p fb piece &&
          encodeLayersOk p n (encodeBlocks p fb piece).2
            (encodeBlocks p fb piece).1) from rfl, Bool.and_eq_true]
    exact ⟨hrow, h1⟩

theorem decodeRow_last (p : ℕ) (hp : p.Prime) (h4 : p % 4 = 3)
    (fb b : ℕ) (bs : List ℕ) (hok : encodeBlocksOk p fb (b :: bs) = true) :
    decodeRow p true (encodeBlocks p fb (b :: bs)).1 = (b ^^^ fb) :: bs := by
  simp only [encodeBlocksOk, Bool.and_eq_true, decide_eq_true_eq] at hok
  obtain ⟨⟨hv0, hvp⟩, hok2⟩ := hok
  simp only [encodeBlocks, decodeRow]
  rw [(sqrtPermutation_spec p hp h4 _ hv0 hvp).2.2,
    decodeTail_encodeBlocks p hp h4 bs _ hok2]

theorem decodeRow_notlast (p : ℕ) (hp : p.Prime) (h4 : p % 4 = 3)
    (fb b : ℕ) (bs : List ℕ) (hbs : bs ≠ []) (hfb : fb = bs.getLastD b)
    (hok : encodeBlocksOk p fb (b :: bs) = true) :
    decodeRow p false (encodeBlocks p fb (b :: bs)).1 = b :: bs := by
  simp only [encodeBlocksOk, Bool.and_eq_true, decide_eq_true_eq] at hok
  obtain ⟨⟨hv0, hvp⟩, hok2⟩ := hok
  simp only [encodeBlocks, decodeRow]
  rw [(sqrtPermutation_spec p hp h4 _ hv0 hvp).2.2,
    decodeTail_encodeBlocks p hp h4 bs _ hok2,
    getLastD_ne_nil bs hbs _ b, ← hfb, Nat.xor_cancel_right]

theorem decodeRow_nil (p : ℕ) (c : Bool) : decodeRow p c [] = [] := by
  cases c <;> rfl

theorem decodeLayers_nil (p : ℕ) : ∀ n : ℕ, decodeLayers p n [] = [] := by
  intro n
  induction n with
  | zero => rfl
  | succ n ih =>
    show decodeLayers p n (decodeRow p (decide (n = 0)) []) = []
    rw [decodeRow_nil]
    exact ih

theorem encodeLayersF_nil (p : ℕ) :
    ∀ (n : ℕ) (fb : ℕ), (encodeLayersF p n fb []).1 = [] := by
  intro n
  induction n with
  | zero => intro fb; rfl
  | succ n ih => intro fb; exact ih _

theorem decodeLayers_encodeLayersF (p : ℕ) (hp : p.Prime) (h4 : p % 4 = 3) :
    ∀ (n : ℕ) (fb b : ℕ) (bs : List ℕ),
      encodeLayersOk p (n + 1) fb (b :: bs) = true →
      decodeLayers p (n + 1) (encodeLayersF p (n + 1) fb (b :: bs)).1 =
        (b ^^^ fb) :: bs := by
  intro n
  induction n with
  | zero =>
    intro fb b bs hok
    obtain ⟨_, hrow⟩ := encodeLayersOk_succ p 0 fb (b :: bs) hok
    exact decodeRow_last p hp h4 fb b bs hrow
  | succ n ih =>
    intro fb b bs hok
    obtain ⟨hok1, hrow⟩ := encodeLayersOk_succ p (n + 1) fb (b :: bs) hok
    have hlen : (encodeLayersF p (n + 1) fb (b :: bs)).1.length =
        bs.length + 1 := by
      rw [encodeLayersF_length]
      rfl
    cases hq : (encodeLayersF p (n + 1) fb (b :: bs)).1 with
    | nil => rw [hq] at hlen; simp at hlen
    | cons qh qt =>
      have hg : (encodeLayersF p (n + 1) fb (b :: bs)).2 = qt.getLastD qh := by
        rw [encodeLayersF_succ, encodeBlocks_snd, ← encodeLayersF_succ, hq,
          List.getLastD_cons]
      rw [hq, hg] at hrow
      cases qt with
      | nil =>
        exfalso
        simp only [List.getLastD_nil, encodeBlocksOk, Nat.xor_self,
          Bool.and_eq_true, decide_eq_true_eq] at hrow
        omega
      | cons q1 qrest =>
        rw [encodeLayersF_succ p (n + 1) fb (b :: bs)]
        have hstep : decodeLayers p (n + 1 + 1)
            (encodeBlocks p (encodeLayersF p (n + 1) fb (b :: bs)).2
              (encodeLayersF p (n + 1) fb (b :: bs)).1).1 =
          decodeLayers p (n + 1)
            (decodeRow p false
              (encodeBlocks p (encodeLayersF p (n + 1) fb (b :: bs)).2
                (encodeLayersF p (n + 1) fb (b :: bs)).1).1) := rfl
        rw [hstep, hq, hg,
          decodeRow_notlast p hp h4 ((q1 :: qrest).getLastD qh) qh (q1 :: qrest)
            (by simp) rfl hrow,
          ← hq]
        exact ih fb b bs hok1

/-- C1: Sloth decoding inverts Sloth encoding.  For every prime p with
p % 4 = 3 (Sloth::init picks the largest such prime below 2^256), every list
of block values (the 4096-byte piece split into 128 blocks, as integers),
every expanded IV and every layer count of at least one, provided every block
value involved stays strictly below the prime (and above zero, since a zero
input would make the permutation emit p itself, which is not below the
prime), decode (encode piece iv layers) iv layers = piece. -/
theorem sloth_decode_encode (p : ℕ) (hp : p.Prime) (h4 : p % 4 = 3)
    (piece : List ℕ) (iv : ℕ) (layers : ℕ) (hL : 1 ≤ layers)
    (hok : encodeLayersOk p layers iv piece = true) :
    decode p (encode p piece iv layers) iv layers = piece := by
  obtain ⟨n, rfl⟩ : ∃ n, layers = n + 1 := ⟨layers - 1, by omega⟩
  cases piece with
  | nil =>
    have h1 : encode p [] iv (n + 1) = [] := encodeLayersF_nil p (n + 1) iv
    rw [h1]
    simp only [decode]
    rw [decodeLayers_nil]
  | cons b bs =>
    have hmain := decodeLayers_encodeLayersF p hp h4 n iv b bs hok
    simp only [encode, decode]
    rw [hmain]
    show ((b ^^^ iv) ^^^ iv) :: bs = b :: bs
    rw [Nat.xor_cancel_right]

/-- Witness for C1: prime 7, the two-block piece (3, 1), IV 1, one layer. -/
theorem sloth_decode_encode_witness :
    decode 7 (encode 7 [3, 1] 1 1) 1 1 = [3, 1] :=
  sloth_decode_encode 7 (by norm_num) (by decide) [3, 1] 1 1 (by decide)
    (by decide)

end Subspace
